import Mathlib

/-!
Shallow embedding of the MovieLens recommender notebook
(`uva-recommender-system.ipynb`).

The notebook's substantive pipeline is:
* `merged_data = pd.merge(ratings, movies, on='movieId')` — inner join;
* `movie_matrix = merged_data.pivot_table(index='userId', columns='title',
  values='rating').fillna(0)` — dense user-by-title matrix, group keys in
  ascending order (pandas `groupby` default `sort=True`), cells aggregated
  with the default `aggfunc='mean'`, missing cells filled with 0;
* `movie_features = pd.get_dummies(movies['genres'].explode())
  .sum(level=0).transpose()` — genre-by-title matrix whose cell counts the
  occurrences of a genre label in the title's genre list;
* `corrwith` — Pearson correlation of every column with the target column,
  `NaN` when either deviation vector has zero sum of squares;
* `sort_values(ascending=False)` — descending by score, `NaN` entries after
  all defined scores (pandas `na_position='last'`).

Ratings are embedded as rationals.  A defined correlation score is kept
symbolically as a pair `(n, d)` with `d > 0`, denoting the real number
`n / √d`; `NaN` is `Option.none`.  Comparison of two symbolic scores is
decidable by cross-multiplying squares, and is proved below to agree with
the real-number order, so the whole pipeline is executable.
-/

/-- One row of `ratings.csv`: `(userId, movieId, rating)`. -/
structure RatingRecord where
  userId : ℕ
  movieId : ℕ
  rating : ℚ
deriving DecidableEq, Repr

/-- One row of `movies.csv` after `str.split('|')`: `(movieId, title, genres)`. -/
structure MovieRecord where
  movieId : ℕ
  title : String
  genres : List String
deriving DecidableEq, Repr

/-- One row of `merged_data = pd.merge(ratings, movies, on='movieId')`. -/
structure MergedRow where
  userId : ℕ
  movieId : ℕ
  rating : ℚ
  title : String
  genres : List String
deriving DecidableEq, Repr

/-- The join `pd.merge(ratings, movies, on='movieId')`: inner join, each left row
paired with every right row carrying the same `movieId`. -/
def pdMerge (ratings : List RatingRecord) (movies : List MovieRecord) : List MergedRow :=
  ratings.flatMap fun r =>
    (movies.filter fun m => decide (m.movieId = r.movieId)).map fun m =>
      ⟨r.userId, r.movieId, r.rating, m.title, m.genres⟩

/-- Insert `x` into `l` immediately before the first element `y` with
`r x y`; the auxiliary step of a stable insertion sort. -/
def insertIn {α : Type} (r : α → α → Bool) (x : α) : List α → List α
  | [] => [x]
  | y :: ys => if r x y then x :: y :: ys else y :: insertIn r x ys

/-- Stable insertion sort by a boolean relation `r`, where `r x y` means
`x` may be placed before `y`. -/
def insertionSortBy {α : Type} (r : α → α → Bool) : List α → List α
  | [] => []
  | x :: xs => insertIn r x (insertionSortBy r xs)

/-- Key axis of a pandas `groupby`/`pivot_table` result: the distinct key
values in ascending order (pandas default `sort=True`). -/
def sortDedup {α : Type} [DecidableEq α] [LinearOrder α] (l : List α) : List α :=
  insertionSortBy (fun a b => decide (a ≤ b)) l.dedup

/-- A row of the table being pivoted: the three columns
`userId`, `title`, `rating` that `pivot_table` consumes. -/
structure PivotRow where
  userId : ℕ
  title : String
  rating : ℚ
deriving DecidableEq, Repr

/-- A dense matrix: row keys, column keys, and a numeric cell function. -/
structure DenseMatrix (ρ κ : Type) where
  rows : List ρ
  cols : List κ
  cell : ρ → κ → ℚ

/-- The multiset of ratings falling into the `(u, t)` cell of the pivot. -/
def pivotCellRatings (recs : List PivotRow) (u : ℕ) (t : String) : List ℚ :=
  (recs.filter fun r => decide (r.userId = u ∧ r.title = t)).map (·.rating)

/-- The pivot `merged_data.pivot_table(index='userId', columns='title',
values='rating').fillna(0)`: rows are the distinct user ids ascending,
columns the distinct titles ascending, each cell the mean of the ratings
grouped into it (`aggfunc='mean'`, the pandas default), or `0` after
`fillna(0)` when the group is empty. -/
def pivotTable (recs : List PivotRow) : DenseMatrix ℕ String where
  rows := sortDedup (recs.map (·.userId))
  cols := sortDedup (recs.map (·.title))
  cell := fun u t =>
    let g := pivotCellRatings recs u t
    if g.isEmpty then 0 else g.sum / g.length

/-- Projection of a merged row onto the three columns used by the pivot. -/
def toPivotRow (row : MergedRow) : PivotRow := ⟨row.userId, row.title, row.rating⟩

/-- The notebook's `movie_matrix`: the user-by-title rating matrix. -/
def movieMatrix (ratings : List RatingRecord) (movies : List MovieRecord) :
    DenseMatrix ℕ String :=
  pivotTable ((pdMerge ratings movies).map toPivotRow)

/-- The table `movie_features = pd.get_dummies(movies['genres'].explode())
.sum(level=0).transpose()`: rows are the distinct genre labels ascending,
columns the distinct titles ascending, and cell `(g, t)` the number of
occurrences of label `g` in the concatenated genre lists of the movies
titled `t` (the `sum` adds the one-hot rows of the exploded series). -/
def movieFeatures (movies : List MovieRecord) : DenseMatrix String String where
  rows := sortDedup (movies.flatMap (·.genres))
  cols := sortDedup (movies.map (·.title))
  cell := fun g t =>
    (((movies.filter fun m => decide (m.title = t)).flatMap (·.genres)).count g : ℚ)

/-- A defined correlation score, kept symbolically: the pair `(n, d)` with
`d > 0` denotes the real number `n / √d`. -/
def Score : Type := {p : ℚ × ℚ // 0 < p.2}

instance : DecidableEq Score := fun a b =>
  decidable_of_iff (a.val = b.val) Subtype.ext_iff.symm

/-- The real number denoted by a symbolic score. -/
noncomputable def Score.toReal (s : Score) : ℝ :=
  (s.val.1 : ℝ) / Real.sqrt (s.val.2 : ℝ)

/-- Build a score `n / √d`, defined only when `d > 0`. -/
def mkScore (n d : ℚ) : Option Score :=
  if h : 0 < d then some ⟨(n, d), h⟩ else none

/-- Mean of a list of rationals (`0` for the empty list, as `x / 0 = 0`). -/
def listMean (l : List ℚ) : ℚ := l.sum / l.length

/-- Deviations from the mean. -/
def deviations (l : List ℚ) : List ℚ := l.map fun x => x - listMean l

/-- Sum of squares. -/
def sumSq (l : List ℚ) : ℚ := (l.map fun x => x ^ 2).sum

/-- Sum of pointwise products of two aligned vectors. -/
def dotSum (xs ys : List ℚ) : ℚ := (List.zipWith (· * ·) xs ys).sum

/-- Pearson correlation of two aligned value vectors, as computed by pandas
`corrwith`: `Σ dx·dy / √(Σ dx² · Σ dy²)`, and `NaN` (here `none`) when either
vector has zero variance. -/
def pearson (xs ys : List ℚ) : Option Score :=
  if sumSq (deviations xs) = 0 ∨ sumSq (deviations ys) = 0 then none
  else mkScore (dotSum (deviations xs) (deviations ys))
    (sumSq (deviations xs) * sumSq (deviations ys))

/-- Decidable comparison of two symbolic scores: `n₁/√d₁ ≤ n₂/√d₂`, decided
by sign analysis and cross-multiplied squares (proved below to agree with
the real order). -/
def scoreLE (a b : Score) : Bool :=
  if 0 ≤ a.val.1 then
    decide (0 ≤ b.val.1) && decide (a.val.1 ^ 2 * b.val.2 ≤ b.val.1 ^ 2 * a.val.2)
  else
    decide (0 ≤ b.val.1) || decide (b.val.1 ^ 2 * a.val.2 ≤ a.val.1 ^ 2 * b.val.2)

/-- The failure of `movie_matrix[movie]` on an absent column, named
`UnknownTargetError` by the specification. -/
inductive RankError where
  | unknownTarget
deriving DecidableEq, Repr

/-- The entries of the correlation series carrying a defined score. -/
def definedPart {κ : Type} (entries : List (κ × Option Score)) : List (κ × Score) :=
  entries.filterMap fun e => e.2.map fun s => (e.1, s)

/-- The entries of the correlation series whose score is `NaN`. -/
def nanPart {κ : Type} (entries : List (κ × Option Score)) : List (κ × Option Score) :=
  entries.filter fun e => e.2.isNone

/-- Descending order on defined entries: `a` may precede `b` when
`score b ≤ score a`. -/
def relDesc {κ : Type} (a b : κ × Score) : Bool := scoreLE b.2 a.2

/-- The sort `sort_values(ascending=False)` on the correlation series: defined scores
in descending order, then the `NaN` entries (pandas `na_position='last'`). -/
def sortEntries {κ : Type} (entries : List (κ × Option Score)) :
    List (κ × Option Score) :=
  ((insertionSortBy relDesc (definedPart entries)).map fun e => (e.1, some e.2))
    ++ nanPart entries

/-- The value vector of one column, aligned over the full row-key list. -/
def colVec {ρ κ : Type} (M : DenseMatrix ρ κ) (c : κ) : List ℚ :=
  M.rows.map fun r => M.cell r c

/-- The series `matrix.corrwith(matrix[target])`: the correlation of every column with
the target column, in column order. -/
def corrEntries {ρ κ : Type} (M : DenseMatrix ρ κ) (target : κ) :
    List (κ × Option Score) :=
  M.cols.map fun c => (c, pearson (colVec M c) (colVec M target))

/-- The similarity ranker: `matrix.corrwith(matrix[target])
.sort_values(ascending=False)`, failing like `matrix[target]` when the
target column is absent. -/
def rankSimilar {ρ κ : Type} [DecidableEq κ] (M : DenseMatrix ρ κ) (target : κ) :
    Except RankError (List (κ × Option Score)) :=
  if target ∈ M.cols then .ok (sortEntries (corrEntries M target))
  else .error .unknownTarget

/-- The notebook's `collaborative_recommendation`: ranking the rating matrix against a title. -/
def collaborativeRecommendation (ratings : List RatingRecord)
    (movies : List MovieRecord) (movie : String) :
    Except RankError (List (String × Option Score)) :=
  rankSimilar (movieMatrix ratings movies) movie

/-- The notebook's `content_recommendation`: ranking the genre feature matrix against a title. -/
def contentRecommendation (movies : List MovieRecord) (movie : String) :
    Except RankError (List (String × Option Score)) :=
  rankSimilar (movieFeatures movies) movie

/-- Auxiliary accumulator for `specFirstAppearance`: keep the elements not
seen before, in order. -/
def specFirstAppearanceAux {α : Type} [DecidableEq α] (seen : List α) :
    List α → List α
  | [] => []
  | x :: xs =>
    if x ∈ seen then specFirstAppearanceAux seen xs
    else x :: specFirstAppearanceAux (x :: seen) xs

/-- Definition following the specification's words, for comparison with the
code's key order: the distinct values of a list in order of first
appearance. -/
def specFirstAppearance {α : Type} [DecidableEq α] (l : List α) : List α :=
  specFirstAppearanceAux [] l

/-- Concrete input for exercising the ranker: a matrix whose single column
is constant, hence has zero variance. -/
def constColumnMatrix : DenseMatrix ℕ String :=
  ⟨[1, 2], ["A"], fun _ _ => 3⟩

/-- Concrete input for exercising the ranker: two anti-correlated columns. -/
def twoColumnMatrix : DenseMatrix ℕ String :=
  ⟨[1, 2], ["A", "B"], fun r c => if c = "A" then (r : ℚ) else (3 : ℚ) - (r : ℚ)⟩

/-- Concrete input for exercising the ranker: two correlated columns and one
constant (zero-variance) column. -/
def threeColumnMatrix : DenseMatrix ℕ String :=
  ⟨[1, 2], ["A", "B", "C"],
    fun r c => if c = "A" then (r : ℚ) else if c = "B" then 5 else (3 : ℚ) - (r : ℚ)⟩

/-- Concrete input for exercising the ranker: the target column "B" is
constant while "A" is not. -/
def constTargetMatrix : DenseMatrix ℕ String :=
  ⟨[1, 2], ["A", "B"], fun r c => if c = "A" then (r : ℚ) else 3⟩

/-- Concrete movie metadata with two distinct items sharing one title. -/
def sharedTitleMovies : List MovieRecord := [⟨1, "T", []⟩, ⟨2, "T", []⟩]

/-- Concrete ratings rating only the first of the two same-titled items. -/
def sharedTitleRatings : List RatingRecord := [⟨7, 1, 5⟩]

/-- Concrete movie metadata where the item "B" has no rating. -/
def unratedItemMovies : List MovieRecord := [⟨1, "A", []⟩, ⟨2, "B", []⟩]

/-- Concrete ratings leaving item 2 ("B") unrated. -/
def unratedItemRatings : List RatingRecord := [⟨7, 1, 5⟩]

/-! ### Lemmas about the stable insertion sort -/

theorem mem_insertIn {α : Type} (r : α → α → Bool) (x a : α) (l : List α) :
    a ∈ insertIn r x l ↔ a = x ∨ a ∈ l := by
  induction l with
  | nil => simp [insertIn]
  | cons y ys ih =>
    by_cases h : r x y
    · simp [insertIn, h]
    · simp [insertIn, h, ih]
      tauto

theorem insertIn_perm {α : Type} (r : α → α → Bool) (x : α) (l : List α) :
    (insertIn r x l).Perm (x :: l) := by
  induction l with
  | nil => exact List.Perm.refl _
  | cons y ys ih =>
    by_cases h : r x y
    · simp only [insertIn, if_pos h]
      exact List.Perm.refl _
    · simp only [insertIn, if_neg h]
      exact (ih.cons y).trans (List.Perm.swap x y ys)

theorem insertionSortBy_perm {α : Type} (r : α → α → Bool) (l : List α) :
    (insertionSortBy r l).Perm l := by
  induction l with
  | nil => exact List.Perm.refl _
  | cons x xs ih =>
    exact (insertIn_perm r x (insertionSortBy r xs)).trans (ih.cons x)

theorem mem_insertionSortBy {α : Type} (r : α → α → Bool) (a : α) (l : List α) :
    a ∈ insertionSortBy r l ↔ a ∈ l :=
  (insertionSortBy_perm r l).mem_iff

theorem pairwise_insertIn {α : Type} (r : α → α → Bool)
    (total : ∀ a b, r a b = true ∨ r b a = true)
    (trans : ∀ a b c, r a b = true → r b c = true → r a c = true)
    (x : α) (l : List α) (h : l.Pairwise fun a b => r a b = true) :
    (insertIn r x l).Pairwise fun a b => r a b = true := by
  induction l with
  | nil => simp [insertIn]
  | cons y ys ih =>
    rcases List.pairwise_cons.mp h with ⟨hy, hys⟩
    by_cases hr : r x y
    · simp only [insertIn, if_pos hr]
      refine List.pairwise_cons.mpr ⟨?_, h⟩
      intro b hb
      rcases List.mem_cons.mp hb with rfl | hb
      · exact hr
      · exact trans x y b hr (hy b hb)
    · simp only [insertIn, if_neg hr]
      refine List.pairwise_cons.mpr ⟨?_, ih hys⟩
      intro b hb
      rcases (mem_insertIn r x b ys).mp hb with rfl | hb
      · rcases total b y with h1 | h1
        · exact absurd h1 hr
        · exact h1
      · exact hy b hb

theorem pairwise_insertionSortBy {α : Type} (r : α → α → Bool)
    (total : ∀ a b, r a b = true ∨ r b a = true)
    (trans : ∀ a b c, r a b = true → r b c = true → r a c = true)
    (l : List α) :
    (insertionSortBy r l).Pairwise fun a b => r a b = true := by
  induction l with
  | nil => simp [insertionSortBy]
  | cons x xs ih => exact pairwise_insertIn r total trans x _ ih

/-! ### Lemmas about `sortDedup` -/

theorem mem_sortDedup {α : Type} [DecidableEq α] [LinearOrder α] (a : α) (l : List α) :
    a ∈ sortDedup l ↔ a ∈ l := by
  unfold sortDedup
  rw [mem_insertionSortBy]
  exact List.mem_dedup

theorem nodup_sortDedup {α : Type} [DecidableEq α] [LinearOrder α] (l : List α) :
    (sortDedup l).Nodup :=
  (insertionSortBy_perm _ _).nodup_iff.mpr (List.nodup_dedup l)

theorem sortDedup_pairwise_lt {α : Type} [DecidableEq α] [LinearOrder α] (l : List α) :
    (sortDedup l).Pairwise (· < ·) := by
  have hle : (sortDedup l).Pairwise (· ≤ ·) := by
    have h := pairwise_insertionSortBy (fun a b : α => decide (a ≤ b))
      (fun a b => by rcases le_total a b with h | h
                     · exact Or.inl (decide_eq_true h)
                     · exact Or.inr (decide_eq_true h))
      (fun a b c hab hbc =>
        decide_eq_true (le_trans (of_decide_eq_true hab) (of_decide_eq_true hbc)))
      l.dedup
    exact h.imp fun hab => of_decide_eq_true hab
  exact List.Sorted.lt_of_le hle (nodup_sortDedup l)

/-! ### The symbolic score order agrees with the real order -/

theorem mul_sqrt_le_mul_sqrt_iff {x y u v : ℝ} (hx : 0 ≤ x) (hy : 0 ≤ y)
    (hu : 0 ≤ u) (hv : 0 ≤ v) :
    x * Real.sqrt v ≤ y * Real.sqrt u ↔ x ^ 2 * v ≤ y ^ 2 * u := by
  constructor
  · intro h
    have h2 : (x * Real.sqrt v) * (x * Real.sqrt v) ≤
        (y * Real.sqrt u) * (y * Real.sqrt u) :=
      mul_self_le_mul_self (by positivity) h
    have e1 : Real.sqrt v * Real.sqrt v = v := Real.mul_self_sqrt hv
    have e2 : Real.sqrt u * Real.sqrt u = u := Real.mul_self_sqrt hu
    nlinarith [h2, e1, e2]
  · intro h
    calc x * Real.sqrt v = Real.sqrt (x ^ 2 * v) := by
          rw [Real.sqrt_mul (sq_nonneg x), Real.sqrt_sq hx]
      _ ≤ Real.sqrt (y ^ 2 * u) := Real.sqrt_le_sqrt h
      _ = y * Real.sqrt u := by rw [Real.sqrt_mul (sq_nonneg y), Real.sqrt_sq hy]

theorem scoreLE_iff (a b : Score) : scoreLE a b = true ↔ a.toReal ≤ b.toReal := by
  obtain ⟨⟨p1, q1⟩, hq1⟩ := a
  obtain ⟨⟨p2, q2⟩, hq2⟩ := b
  have hq1R : (0 : ℝ) < (q1 : ℝ) := by exact_mod_cast hq1
  have hq2R : (0 : ℝ) < (q2 : ℝ) := by exact_mod_cast hq2
  have hs1 : (0 : ℝ) < Real.sqrt (q1 : ℝ) := Real.sqrt_pos.mpr hq1R
  have hs2 : (0 : ℝ) < Real.sqrt (q2 : ℝ) := Real.sqrt_pos.mpr hq2R
  show scoreLE ⟨(p1, q1), hq1⟩ ⟨(p2, q2), hq2⟩ = true ↔
    (p1 : ℝ) / Real.sqrt (q1 : ℝ) ≤ (p2 : ℝ) / Real.sqrt (q2 : ℝ)
  rw [div_le_div_iff₀ hs1 hs2]
  unfold scoreLE
  by_cases hp1 : (0 : ℚ) ≤ p1
  · have hp1R : (0 : ℝ) ≤ (p1 : ℝ) := by exact_mod_cast hp1
    simp only [if_pos hp1, Bool.and_eq_true, decide_eq_true_eq]
    constructor
    · rintro ⟨hp2, hsq⟩
      have hp2R : (0 : ℝ) ≤ (p2 : ℝ) := by exact_mod_cast hp2
      have hsqR : (p1 : ℝ) ^ 2 * (q2 : ℝ) ≤ (p2 : ℝ) ^ 2 * (q1 : ℝ) := by
        exact_mod_cast hsq
      exact (mul_sqrt_le_mul_sqrt_iff hp1R hp2R hq1R.le hq2R.le).mpr hsqR
    · intro h
      have hp2R : (0 : ℝ) ≤ (p2 : ℝ) := by
        by_contra hneg
        push_neg at hneg
        nlinarith [mul_nonneg hp1R hs2.le]
      have hsq : (p1 : ℝ) ^ 2 * (q2 : ℝ) ≤ (p2 : ℝ) ^ 2 * (q1 : ℝ) :=
        (mul_sqrt_le_mul_sqrt_iff hp1R hp2R hq1R.le hq2R.le).mp h
      exact ⟨by exact_mod_cast hp2R, by exact_mod_cast hsq⟩
  · have hp1R : (p1 : ℝ) < 0 := by exact_mod_cast not_le.mp hp1
    simp only [if_neg hp1, Bool.or_eq_true, decide_eq_true_eq]
    constructor
    · intro h
      rcases h with hp2 | hsq
      · have hp2R : (0 : ℝ) ≤ (p2 : ℝ) := by exact_mod_cast hp2
        nlinarith [mul_nonneg hp2R hs1.le]
      · have hsqR : (p2 : ℝ) ^ 2 * (q1 : ℝ) ≤ (p1 : ℝ) ^ 2 * (q2 : ℝ) := by
          exact_mod_cast hsq
        by_cases hp2 : (0 : ℚ) ≤ p2
        · have hp2R : (0 : ℝ) ≤ (p2 : ℝ) := by exact_mod_cast hp2
          nlinarith [mul_nonneg hp2R hs1.le]
        · have hp2R : (p2 : ℝ) < 0 := by exact_mod_cast not_le.mp hp2
          have hneg : (-(p2 : ℝ)) ^ 2 * (q1 : ℝ) ≤ (-(p1 : ℝ)) ^ 2 * (q2 : ℝ) := by
            nlinarith [hsqR]
          have h2 : (-(p2 : ℝ)) * Real.sqrt (q1 : ℝ) ≤
              (-(p1 : ℝ)) * Real.sqrt (q2 : ℝ) :=
            (mul_sqrt_le_mul_sqrt_iff (by linarith) (by linarith)
              hq2R.le hq1R.le).mpr hneg
          nlinarith [h2]
    · intro h
      by_cases hp2 : (0 : ℚ) ≤ p2
      · exact Or.inl hp2
      · have hp2R : (p2 : ℝ) < 0 := by exact_mod_cast not_le.mp hp2
        have hneg : (-(p2 : ℝ)) * Real.sqrt (q1 : ℝ) ≤
            (-(p1 : ℝ)) * Real.sqrt (q2 : ℝ) := by nlinarith [h]
        have hsq : (-(p2 : ℝ)) ^ 2 * (q1 : ℝ) ≤ (-(p1 : ℝ)) ^ 2 * (q2 : ℝ) :=
          (mul_sqrt_le_mul_sqrt_iff (by linarith) (by linarith)
            hq2R.le hq1R.le).mp hneg
        refine Or.inr ?_
        have hfin : (p2 : ℝ) ^ 2 * (q1 : ℝ) ≤ (p1 : ℝ) ^ 2 * (q2 : ℝ) := by
          nlinarith [hsq]
        exact_mod_cast hfin

theorem scoreLE_total (a b : Score) : scoreLE a b = true ∨ scoreLE b a = true := by
  rcases le_total a.toReal b.toReal with h | h
  · exact Or.inl ((scoreLE_iff a b).mpr h)
  · exact Or.inr ((scoreLE_iff b a).mpr h)

theorem scoreLE_trans (a b c : Score) (hab : scoreLE a b = true)
    (hbc : scoreLE b c = true) : scoreLE a c = true :=
  (scoreLE_iff a c).mpr (le_trans ((scoreLE_iff a b).mp hab) ((scoreLE_iff b c).mp hbc))

theorem relDesc_total {κ : Type} (a b : κ × Score) :
    relDesc a b = true ∨ relDesc b a = true := by
  unfold relDesc
  rcases scoreLE_total b.2 a.2 with h | h
  · exact Or.inl h
  · exact Or.inr h

theorem relDesc_trans {κ : Type} (a b c : κ × Score) (hab : relDesc a b = true)
    (hbc : relDesc b c = true) : relDesc a c = true :=
  scoreLE_trans c.2 b.2 a.2 hbc hab

theorem relDesc_iff {κ : Type} (a b : κ × Score) :
    relDesc a b = true ↔ b.2.toReal ≤ a.2.toReal :=
  scoreLE_iff b.2 a.2

/-! ### Pearson scores: nonnegativity, Cauchy-Schwarz, self-correlation -/

theorem sumSq_nonneg (l : List ℚ) : 0 ≤ sumSq l := by
  unfold sumSq
  induction l with
  | nil => simp
  | cons x xs ih =>
    simp only [List.map_cons, List.sum_cons]
    positivity

theorem dotSum_sq_le (xs ys : List ℚ) : (dotSum xs ys) ^ 2 ≤ sumSq xs * sumSq ys := by
  induction xs generalizing ys with
  | nil =>
    simp only [dotSum, sumSq, List.zipWith_nil_left, List.sum_nil, List.map_nil]
    simp
  | cons x xs ih =>
    cases ys with
    | nil =>
      simp only [dotSum, sumSq, List.zipWith_nil_right, List.sum_nil, List.map_nil,
        List.sum_cons, List.map_cons]
      simp
    | cons y ys =>
      have h := ih ys
      have hx := sumSq_nonneg xs
      have hy := sumSq_nonneg ys
      simp only [dotSum, sumSq, List.zipWith_cons_cons, List.sum_cons,
        List.map_cons] at h hx hy ⊢
      set a := (List.zipWith (· * ·) xs ys).sum with ha
      set b := (xs.map fun x => x ^ 2).sum with hb
      set c := (ys.map fun x => x ^ 2).sum with hc
      rcases eq_or_lt_of_le hx with hb0 | hbpos
      · have ha0 : a = 0 := by nlinarith [sq_nonneg a]
        have hby : b * y ^ 2 = 0 := by rw [← hb0]; ring
        have hbc : b * c = 0 := by rw [← hb0]; ring
        have hxya : x * y * a = 0 := by rw [ha0]; ring
        have ha2 : a ^ 2 = 0 := by rw [ha0]; ring
        nlinarith [mul_nonneg (sq_nonneg x) hy, hby, hbc, hxya, ha2]
      · nlinarith [sq_nonneg (b * y - a * x),
          mul_nonneg (sub_nonneg.mpr h) (sq_nonneg x),
          mul_nonneg (sub_nonneg.mpr h) hbpos.le]

theorem dotSum_self (l : List ℚ) : dotSum l l = sumSq l := by
  induction l with
  | nil => rfl
  | cons x xs ih =>
    simp only [dotSum, sumSq, List.zipWith_cons_cons, List.sum_cons,
      List.map_cons] at ih ⊢
    rw [sq, ih]

theorem pearson_none_iff (xs ys : List ℚ) :
    pearson xs ys = none ↔
      sumSq (deviations xs) = 0 ∨ sumSq (deviations ys) = 0 := by
  unfold pearson mkScore
  by_cases h : sumSq (deviations xs) = 0 ∨ sumSq (deviations ys) = 0
  · simp [h]
  · rcases not_or.mp h with ⟨hx, hy⟩
    have hpos : 0 < sumSq (deviations xs) * sumSq (deviations ys) :=
      mul_pos ((sumSq_nonneg _).lt_of_ne (Ne.symm hx))
        ((sumSq_nonneg _).lt_of_ne (Ne.symm hy))
    simp [h, dif_pos hpos]

theorem pearson_some_val (xs ys : List ℚ) (s : Score)
    (h : pearson xs ys = some s) :
    s.val.1 = dotSum (deviations xs) (deviations ys) ∧
      s.val.2 = sumSq (deviations xs) * sumSq (deviations ys) := by
  unfold pearson mkScore at h
  by_cases hc : sumSq (deviations xs) = 0 ∨ sumSq (deviations ys) = 0
  · simp [hc] at h
  · simp only [if_neg hc] at h
    by_cases hd : 0 < sumSq (deviations xs) * sumSq (deviations ys)
    · rw [dif_pos hd] at h
      rcases Option.some_inj.mp h with rfl
      exact ⟨rfl, rfl⟩
    · rw [dif_neg hd] at h
      exact absurd h (by simp)

theorem pearson_toReal_le_one (xs ys : List ℚ) (s : Score)
    (h : pearson xs ys = some s) : s.toReal ≤ 1 := by
  obtain ⟨h1, h2⟩ := pearson_some_val xs ys s h
  have hd : (0 : ℚ) < s.val.2 := s.property
  have hdR : (0 : ℝ) < (s.val.2 : ℝ) := by exact_mod_cast hd
  have hs : (0 : ℝ) < Real.sqrt (s.val.2 : ℝ) := Real.sqrt_pos.mpr hdR
  unfold Score.toReal
  rcases le_or_lt (s.val.1 : ℝ) 0 with hn | hn
  · have : (s.val.1 : ℝ) / Real.sqrt (s.val.2 : ℝ) ≤ 0 :=
      div_nonpos_iff.mpr (Or.inr ⟨hn, Real.sqrt_nonneg _⟩)
    linarith
  · rw [div_le_one hs]
    apply Real.le_sqrt_of_sq_le
    have hcs : s.val.1 ^ 2 ≤ s.val.2 := by
      rw [h1, h2]
      exact dotSum_sq_le (deviations xs) (deviations ys)
    exact_mod_cast hcs

theorem pearson_self_eq_one (xs : List ℚ) (h : sumSq (deviations xs) ≠ 0) :
    ∃ s, pearson xs xs = some s ∧ s.toReal = 1 := by
  have hpos : 0 < sumSq (deviations xs) :=
    (sumSq_nonneg _).lt_of_ne (Ne.symm h)
  have hprod : 0 < sumSq (deviations xs) * sumSq (deviations xs) :=
    mul_pos hpos hpos
  refine ⟨⟨(sumSq (deviations xs), sumSq (deviations xs) * sumSq (deviations xs)),
    hprod⟩, ?_, ?_⟩
  · unfold pearson mkScore
    rw [if_neg (by tauto), dif_pos hprod]
    congr 1
    exact Subtype.ext (by rw [dotSum_self])
  · unfold Score.toReal
    have hR : (0 : ℝ) < ((sumSq (deviations xs) : ℚ) : ℝ) := by exact_mod_cast hpos
    show ((sumSq (deviations xs) : ℚ) : ℝ) /
      Real.sqrt (((sumSq (deviations xs) * sumSq (deviations xs) : ℚ) : ℝ)) = 1
    rw [Rat.cast_mul, Real.sqrt_mul_self hR.le]
    exact div_self (ne_of_gt hR)

/-! ### Structure of the sorted ranking output -/

theorem mem_definedPart {κ : Type} (entries : List (κ × Option Score))
    (c : κ) (s : Score) :
    (c, s) ∈ definedPart entries ↔ (c, some s) ∈ entries := by
  unfold definedPart
  rw [List.mem_filterMap]
  constructor
  · rintro ⟨⟨c2, o⟩, hmem, hval⟩
    cases o with
    | none => simp at hval
    | some s2 =>
      simp only [Option.map_some'] at hval
      have h := Option.some_inj.mp hval
      obtain ⟨rfl, rfl⟩ := Prod.mk.inj h
      exact hmem
  · intro hmem
    exact ⟨(c, some s), hmem, rfl⟩

theorem mem_nanPart {κ : Type} (entries : List (κ × Option Score))
    (e : κ × Option Score) :
    e ∈ nanPart entries ↔ e ∈ entries ∧ e.2 = none := by
  unfold nanPart
  rw [List.mem_filter]
  simp [Option.isNone_iff_eq_none]

theorem sorted_definedPart {κ : Type} (entries : List (κ × Option Score)) :
    (insertionSortBy relDesc (definedPart entries)).Pairwise
      fun a b => relDesc a b = true :=
  pairwise_insertionSortBy relDesc relDesc_total relDesc_trans (definedPart entries)

theorem rankSimilar_ok {ρ κ : Type} [DecidableEq κ] (M : DenseMatrix ρ κ)
    (target : κ) (h : target ∈ M.cols) :
    rankSimilar M target = .ok (sortEntries (corrEntries M target)) := by
  unfold rankSimilar
  rw [if_pos h]

theorem rankSimilar_error {ρ κ : Type} [DecidableEq κ] (M : DenseMatrix ρ κ)
    (target : κ) (h : target ∉ M.cols) :
    rankSimilar M target = .error .unknownTarget := by
  unfold rankSimilar
  rw [if_neg h]

theorem mem_corrEntries {ρ κ : Type} (M : DenseMatrix ρ κ) (target : κ)
    (e : κ × Option Score) (h : e ∈ corrEntries M target) :
    ∃ c ∈ M.cols, e = (c, pearson (colVec M c) (colVec M target)) := by
  unfold corrEntries at h
  rcases List.mem_map.mp h with ⟨c, hc, rfl⟩
  exact ⟨c, hc, rfl⟩

theorem sortEntries_decomp_of_mem_defined {κ : Type}
    (entries : List (κ × Option Score)) (c : κ) (s : Score)
    (hmem : (c, some s) ∈ entries) :
    ∃ l1 l2, sortEntries entries = l1 ++ (c, some s) :: l2 ∧
      ∀ e ∈ l1, ∃ s2, e.2 = some s2 ∧ scoreLE s s2 = true := by
  have hd : (c, s) ∈ insertionSortBy relDesc (definedPart entries) :=
    (mem_insertionSortBy relDesc _ _).mpr ((mem_definedPart entries c s).mpr hmem)
  rcases List.append_of_mem hd with ⟨i1, i2, hsplit⟩
  have hpw := sorted_definedPart entries
  rw [hsplit] at hpw
  have hcross := (List.pairwise_append.mp hpw).2.2
  refine ⟨i1.map fun e => (e.1, some e.2),
    (i2.map fun e => (e.1, some e.2)) ++ nanPart entries, ?_, ?_⟩
  · unfold sortEntries
    rw [hsplit]
    simp [List.map_append]
  · intro e he
    rcases List.mem_map.mp he with ⟨x, hx, rfl⟩
    refine ⟨x.2, rfl, ?_⟩
    have := hcross x hx (c, s) (List.mem_cons_self _ _)
    exact this

theorem sortEntries_pairwise_nan_last {κ : Type}
    (entries : List (κ × Option Score)) :
    (sortEntries entries).Pairwise fun a b => a.2 = none → b.2 = none := by
  unfold sortEntries
  rw [List.pairwise_append]
  refine ⟨?_, ?_, ?_⟩
  · apply List.pairwise_of_forall_mem_list
    intro a ha b hb habs
    rcases List.mem_map.mp ha with ⟨x, hx, rfl⟩
    simp at habs
  · apply List.pairwise_of_forall_mem_list
    intro a ha b hb _
    exact ((mem_nanPart entries b).mp hb).2
  · intro a ha b hb
    intro _
    exact ((mem_nanPart entries b).mp hb).2

theorem sortEntries_of_all_none {κ : Type} (entries : List (κ × Option Score))
    (h : ∀ e ∈ entries, e.2 = none) : sortEntries entries = entries := by
  unfold sortEntries
  have hdef : definedPart entries = [] := by
    unfold definedPart
    rw [List.filterMap_eq_nil_iff]
    intro e he
    rw [h e he]
    rfl
  have hnan : nanPart entries = entries := by
    unfold nanPart
    rw [List.filter_eq_self]
    intro e he
    rw [Option.isNone_iff_eq_none]
    exact h e he
  rw [hdef, hnan]
  rfl

theorem mem_sortEntries_iff {κ : Type} (entries : List (κ × Option Score))
    (e : κ × Option Score) : e ∈ sortEntries entries ↔ e ∈ entries := by
  unfold sortEntries
  rw [List.mem_append]
  constructor
  · rintro (hm | hn)
    · rcases List.mem_map.mp hm with ⟨x, hx, rfl⟩
      have := (mem_insertionSortBy relDesc x _).mp hx
      exact (mem_definedPart entries x.1 x.2).mp this
    · exact ((mem_nanPart entries e).mp hn).1
  · intro he
    cases ho : e.2 with
    | none =>
      exact Or.inr ((mem_nanPart entries e).mpr ⟨he, ho⟩)
    | some s =>
      refine Or.inl ?_
      have hd : (e.1, s) ∈ definedPart entries := by
        rw [mem_definedPart]
        rw [← ho]
        exact he
      have hs : (e.1, s) ∈ insertionSortBy relDesc (definedPart entries) :=
        (mem_insertionSortBy relDesc _ _).mpr hd
      have : ((e.1, s).1, some (e.1, s).2) ∈
          (insertionSortBy relDesc (definedPart entries)).map
            fun x => (x.1, some x.2) :=
        List.mem_map_of_mem _ hs
      simpa [← ho] using this

/-! ### Pivot table lemmas -/

theorem listMean_of_const (l : List ℚ) (c : ℚ) (h : ∀ x ∈ l, x = c)
    (hne : l ≠ []) : listMean l = c := by
  unfold listMean
  rw [List.sum_eq_card_nsmul l c h, nsmul_eq_mul]
  have hl : (0 : ℚ) < (l.length : ℚ) := by
    have := List.length_pos.mpr hne
    exact_mod_cast this
  field_simp

theorem pivotCellRatings_of_unique (recs : List PivotRow) (rec : PivotRow)
    (hmem : rec ∈ recs)
    (hpair : recs.Pairwise fun a b => ¬(a.userId = b.userId ∧ a.title = b.title)) :
    pivotCellRatings recs rec.userId rec.title = [rec.rating] := by
  induction recs with
  | nil => cases hmem
  | cons r rest ih =>
    rcases List.pairwise_cons.mp hpair with ⟨hr, hrest⟩
    unfold pivotCellRatings
    rcases List.mem_cons.mp hmem with rfl | hmem2
    · rw [List.filter_cons_of_pos (by simp)]
      have hnil : rest.filter
          (fun x => decide (x.userId = rec.userId ∧ x.title = rec.title)) = [] := by
        rw [List.filter_eq_nil_iff]
        intro b hb
        simp only [decide_eq_true_eq]
        intro hcontra
        exact hr b hb ⟨hcontra.1.symm, hcontra.2.symm⟩
      rw [hnil]
      rfl
    · rw [List.filter_cons_of_neg]
      · exact ih hmem2 hrest
      · simp only [decide_eq_true_eq]
        exact hr rec hmem2
    
theorem pivotTable_cell_of_unique (recs : List PivotRow) (rec : PivotRow)
    (hmem : rec ∈ recs)
    (hpair : recs.Pairwise fun a b => ¬(a.userId = b.userId ∧ a.title = b.title)) :
    (pivotTable recs).cell rec.userId rec.title = rec.rating := by
  show (let g := pivotCellRatings recs rec.userId rec.title
    if g.isEmpty then 0 else g.sum / g.length) = rec.rating
  rw [pivotCellRatings_of_unique recs rec hmem hpair]
  simp

theorem pivotTable_cell_of_absent (recs : List PivotRow) (u : ℕ) (t : String)
    (h : ∀ rec ∈ recs, ¬(rec.userId = u ∧ rec.title = t)) :
    (pivotTable recs).cell u t = 0 := by
  show (let g := pivotCellRatings recs u t
    if g.isEmpty then 0 else g.sum / g.length) = 0
  have hnil : pivotCellRatings recs u t = [] := by
    unfold pivotCellRatings
    have : recs.filter (fun r => decide (r.userId = u ∧ r.title = t)) = [] := by
      rw [List.filter_eq_nil_iff]
      intro b hb
      simp only [decide_eq_true_eq]
      exact h b hb
    rw [this]
    rfl
  rw [hnil]
  rfl

theorem pivotTable_cell_mean (recs : List PivotRow) (u : ℕ) (t : String)
    (h : pivotCellRatings recs u t ≠ []) :
    (pivotTable recs).cell u t = listMean (pivotCellRatings recs u t) := by
  show (let g := pivotCellRatings recs u t
    if g.isEmpty then 0 else g.sum / g.length) = listMean (pivotCellRatings recs u t)
  rw [if_neg (by simpa [List.isEmpty_iff] using h)]
  rfl

/-! ### Claim theorems -/

/-- C1: for every sequence of rating records with at most one rating per
`(user, title)` pair, the pivoted matrix has one row per distinct user id and
one column per distinct title, and cell `(u, t)` is the rating given by `u`
to `t` when such a record exists, else `0`. -/
theorem C1_rating_matrix_correct (recs : List PivotRow)
    (huniq : recs.Pairwise fun a b => ¬(a.userId = b.userId ∧ a.title = b.title)) :
    (∀ rec ∈ recs, (pivotTable recs).cell rec.userId rec.title = rec.rating) ∧
    (∀ u t, (∀ rec ∈ recs, ¬(rec.userId = u ∧ rec.title = t)) →
      (pivotTable recs).cell u t = 0) ∧
    ((pivotTable recs).rows.Nodup ∧
      ∀ u, u ∈ (pivotTable recs).rows ↔ ∃ rec ∈ recs, rec.userId = u) ∧
    ((pivotTable recs).cols.Nodup ∧
      ∀ t, t ∈ (pivotTable recs).cols ↔ ∃ rec ∈ recs, rec.title = t) := by
  refine ⟨?_, ?_, ⟨?_, ?_⟩, ⟨?_, ?_⟩⟩
  · intro rec hmem
    exact pivotTable_cell_of_unique recs rec hmem huniq
  · intro u t h
    exact pivotTable_cell_of_absent recs u t h
  · exact nodup_sortDedup _
  · intro u
    show u ∈ sortDedup (recs.map (·.userId)) ↔ _
    rw [mem_sortDedup, List.mem_map]
  · exact nodup_sortDedup _
  · intro t
    show t ∈ sortDedup (recs.map (·.title)) ↔ _
    rw [mem_sortDedup, List.mem_map]

/-- Witness for C1 at a concrete two-record input. -/
theorem C1_rating_matrix_correct_witness :
    (([⟨1, "A", 5⟩, ⟨2, "A", 3⟩] : List PivotRow).Pairwise fun a b =>
      ¬(a.userId = b.userId ∧ a.title = b.title)) ∧
    ((∀ rec ∈ ([⟨1, "A", 5⟩, ⟨2, "A", 3⟩] : List PivotRow),
      (pivotTable [⟨1, "A", 5⟩, ⟨2, "A", 3⟩]).cell rec.userId rec.title = rec.rating) ∧
    (∀ u t, (∀ rec ∈ ([⟨1, "A", 5⟩, ⟨2, "A", 3⟩] : List PivotRow),
        ¬(rec.userId = u ∧ rec.title = t)) →
      (pivotTable [⟨1, "A", 5⟩, ⟨2, "A", 3⟩]).cell u t = 0) ∧
    ((pivotTable [⟨1, "A", 5⟩, ⟨2, "A", 3⟩]).rows.Nodup ∧
      ∀ u, u ∈ (pivotTable [⟨1, "A", 5⟩, ⟨2, "A", 3⟩]).rows ↔
        ∃ rec ∈ ([⟨1, "A", 5⟩, ⟨2, "A", 3⟩] : List PivotRow), rec.userId = u) ∧
    ((pivotTable [⟨1, "A", 5⟩, ⟨2, "A", 3⟩]).cols.Nodup ∧
      ∀ t, t ∈ (pivotTable [⟨1, "A", 5⟩, ⟨2, "A", 3⟩]).cols ↔
        ∃ rec ∈ ([⟨1, "A", 5⟩, ⟨2, "A", 3⟩] : List PivotRow), rec.title = t)) :=
  ⟨by decide, C1_rating_matrix_correct _ (by decide)⟩

/-- C2 (code bug): on an item whose genre list repeats a label, the built
feature matrix cell holds the occurrence count `2`, not the binary presence
value `1` stated by the specification and by the notebook's own comment
("the binary genre score"). -/
theorem C2_feature_cell_counts_duplicates :
    (movieFeatures [⟨1, "M1", ["Comedy", "Comedy"]⟩]).cell "Comedy" "M1" = 2 := by
  norm_num [movieFeatures]

/-- C6: ranking any dense matrix against a target column key that is not a
column of the matrix fails with `UnknownTargetError`. -/
theorem C6_unknown_target_error {ρ κ : Type} [DecidableEq κ]
    (M : DenseMatrix ρ κ) (target : κ) (h : target ∉ M.cols) :
    rankSimilar M target = .error .unknownTarget :=
  rankSimilar_error M target h

/-- Witness for C6 at a concrete matrix and absent key. -/
theorem C6_unknown_target_error_witness :
    ("B" ∉ (DenseMatrix.mk [1] ["A"] fun _ _ => (0 : ℚ) : DenseMatrix ℕ String).cols) ∧
    rankSimilar (DenseMatrix.mk [1] ["A"] fun _ _ => (0 : ℚ) : DenseMatrix ℕ String) "B" =
      .error .unknownTarget :=
  ⟨by decide, C6_unknown_target_error _ "B" (by decide)⟩

/-- C7 counterexample: on the input whose users appear in the order `2, 1`
and titles in the order `"B", "A"`, the pivoted matrix's keys are in
ascending sorted order, not in order of first appearance as the claim
states. -/
theorem C7_counterexample_key_order :
    ¬((pivotTable [⟨2, "B", 1⟩, ⟨1, "A", 1⟩]).rows =
        specFirstAppearance (([⟨2, "B", 1⟩, ⟨1, "A", 1⟩] : List PivotRow).map (·.userId)) ∧
      (pivotTable [⟨2, "B", 1⟩, ⟨1, "A", 1⟩]).cols =
        specFirstAppearance (([⟨2, "B", 1⟩, ⟨1, "A", 1⟩] : List PivotRow).map (·.title))) := by
  decide

/-- C7 as amended: the row keys of the pivoted matrix are the distinct user
ids in ascending order, and the column keys are the distinct titles in
ascending (lexicographic) order — pandas sorts group keys, it does not keep
first-appearance order. -/
theorem C7_keys_sorted (recs : List PivotRow) :
    (pivotTable recs).rows.Pairwise (· < ·) ∧
    (∀ u, u ∈ (pivotTable recs).rows ↔ u ∈ recs.map (·.userId)) ∧
    (pivotTable recs).cols.Pairwise (· < ·) ∧
    (∀ t, t ∈ (pivotTable recs).cols ↔ t ∈ recs.map (·.title)) := by
  refine ⟨sortDedup_pairwise_lt _, fun u => mem_sortDedup u _,
    sortDedup_pairwise_lt _, fun t => mem_sortDedup t _⟩

/-- C8: when several rating records fall into the same `(user, title)` cell,
the pivot's default aggregation stores the arithmetic mean of those ratings. -/
theorem C8_duplicate_ratings_mean (recs : List PivotRow) (u : ℕ) (t : String)
    (h : pivotCellRatings recs u t ≠ []) :
    (pivotTable recs).cell u t = listMean (pivotCellRatings recs u t) :=
  pivotTable_cell_mean recs u t h

/-- Witness for C8: two ratings 5 and 2 by the same user for the same title. -/
theorem C8_duplicate_ratings_mean_witness :
    (pivotCellRatings [⟨1, "A", 5⟩, ⟨1, "A", 2⟩] 1 "A" ≠ []) ∧
    (pivotTable [⟨1, "A", 5⟩, ⟨1, "A", 2⟩]).cell 1 "A" =
      listMean (pivotCellRatings [⟨1, "A", 5⟩, ⟨1, "A", 2⟩] 1 "A") :=
  ⟨by decide, C8_duplicate_ratings_mean _ 1 "A" (by decide)⟩

/-- C3 counterexample: on a matrix whose target column is constant (zero
variance), the output does not contain the target with a defined score of 1 —
its self-correlation is `NaN` — refuting the claim as stated for every
matrix and column. -/
theorem C3_counterexample_zero_variance_target :
    ¬∃ l s, rankSimilar constColumnMatrix "A" = .ok l ∧
      ("A", some s) ∈ l ∧ Score.toReal s = 1 := by
  rintro ⟨l, s, hok, hmem, -⟩
  have hsort : sortEntries (corrEntries constColumnMatrix "A") = [("A", none)] := by
    norm_num [sortEntries, corrEntries, definedPart, nanPart, pearson, colVec,
      sumSq, deviations, listMean, insertionSortBy, constColumnMatrix]
  rw [rankSimilar_ok _ _ (by decide), hsort] at hok
  obtain rfl := Except.ok.inj hok
  simp at hmem

/-- C3 as amended: for a target column of nonzero variance, the ranking
includes the target itself with a score of exactly 1, and every entry placed
before the target's entry also carries a defined score of exactly 1 — so no
column with a smaller or undefined correlation precedes it. -/
theorem C3_self_correlation_top {ρ κ : Type} [DecidableEq κ]
    (M : DenseMatrix ρ κ) (target : κ) (hmem : target ∈ M.cols)
    (hvar : sumSq (deviations (colVec M target)) ≠ 0) :
    ∃ l l1 l2 s, rankSimilar M target = .ok l ∧
      l = l1 ++ (target, some s) :: l2 ∧ Score.toReal s = 1 ∧
      ∀ e ∈ l1, ∃ s2, e.2 = some s2 ∧ Score.toReal s2 = 1 := by
  obtain ⟨s, hps, hs1⟩ := pearson_self_eq_one (colVec M target) hvar
  have hentry : (target, some s) ∈ corrEntries M target := by
    unfold corrEntries
    refine List.mem_map.mpr ⟨target, hmem, ?_⟩
    rw [hps]
  obtain ⟨l1, l2, hsplit, hl1⟩ :=
    sortEntries_decomp_of_mem_defined (corrEntries M target) target s hentry
  refine ⟨sortEntries (corrEntries M target), l1, l2, s,
    rankSimilar_ok M target hmem, hsplit, hs1, ?_⟩
  intro e he
  obtain ⟨s2, hs2, hle⟩ := hl1 e he
  have hge : Score.toReal s ≤ Score.toReal s2 := (scoreLE_iff s s2).mp hle
  have hein : e ∈ sortEntries (corrEntries M target) := by
    rw [hsplit]
    exact List.mem_append_left _ he
  have hec := (mem_sortEntries_iff (corrEntries M target) e).mp hein
  obtain ⟨c, hc, rfl⟩ := mem_corrEntries M target e hec
  have hp : pearson (colVec M c) (colVec M target) = some s2 := hs2
  have hle1 := pearson_toReal_le_one _ _ _ hp
  exact ⟨s2, hs2, le_antisymm hle1 (by rw [← hs1]; exact hge)⟩

/-- Witness for C3 at a concrete two-column matrix with target "A". -/
theorem C3_self_correlation_top_witness :
    ("A" ∈ twoColumnMatrix.cols ∧
      sumSq (deviations (colVec twoColumnMatrix "A")) ≠ 0) ∧
    (∃ l l1 l2 s, rankSimilar twoColumnMatrix "A" = .ok l ∧
      l = l1 ++ ("A", some s) :: l2 ∧ Score.toReal s = 1 ∧
      ∀ e ∈ l1, ∃ s2, e.2 = some s2 ∧ Score.toReal s2 = 1) :=
  ⟨⟨by decide, by norm_num [sumSq, deviations, listMean, colVec, twoColumnMatrix]⟩,
    C3_self_correlation_top twoColumnMatrix "A" (by decide)
      (by norm_num [sumSq, deviations, listMean, colVec, twoColumnMatrix])⟩

/-- C5: in every ranking output, an entry carrying an undefined (`NaN`)
correlation never precedes an entry with a defined score, and a correlation
is undefined exactly when one of the two aligned vectors has zero variance. -/
theorem C5_undefined_scores_last {ρ κ : Type} [DecidableEq κ]
    (M : DenseMatrix ρ κ) (target : κ) (hmem : target ∈ M.cols) :
    ∃ l, rankSimilar M target = .ok l ∧
      (l.Pairwise fun a b => a.2 = none → b.2 = none) ∧
      (∀ c ∈ M.cols,
        pearson (colVec M c) (colVec M target) = none ↔
          (sumSq (deviations (colVec M c)) = 0 ∨
            sumSq (deviations (colVec M target)) = 0)) :=
  ⟨sortEntries (corrEntries M target), rankSimilar_ok M target hmem,
    sortEntries_pairwise_nan_last _, fun _ _ => pearson_none_iff _ _⟩

/-- Witness for C5 at a three-column matrix with one zero-variance column. -/
theorem C5_undefined_scores_last_witness :
    ("A" ∈ threeColumnMatrix.cols) ∧
    (∃ l, rankSimilar threeColumnMatrix "A" = .ok l ∧
      (l.Pairwise fun a b => a.2 = none → b.2 = none) ∧
      (∀ c ∈ threeColumnMatrix.cols,
        pearson (colVec threeColumnMatrix c) (colVec threeColumnMatrix "A") = none ↔
          (sumSq (deviations (colVec threeColumnMatrix c)) = 0 ∨
            sumSq (deviations (colVec threeColumnMatrix "A")) = 0))) :=
  ⟨by decide, C5_undefined_scores_last threeColumnMatrix "A" (by decide)⟩

/-- C9: when the chosen target column has zero variance, every score in the
ranking output — the target's own self-correlation included — is undefined
(`NaN`); in particular the target does not appear with score 1. -/
theorem C9_zero_variance_target_undefined {ρ κ : Type} [DecidableEq κ]
    (M : DenseMatrix ρ κ) (target : κ) (hmem : target ∈ M.cols)
    (hvar : sumSq (deviations (colVec M target)) = 0) :
    ∃ l, rankSimilar M target = .ok l ∧ ∀ e ∈ l, e.2 = none := by
  refine ⟨sortEntries (corrEntries M target), rankSimilar_ok M target hmem, ?_⟩
  have hall : ∀ e ∈ corrEntries M target, e.2 = none := by
    intro e he
    rcases mem_corrEntries M target e he with ⟨c, hc, rfl⟩
    show pearson (colVec M c) (colVec M target) = none
    exact (pearson_none_iff _ _).mpr (Or.inr hvar)
  intro e he
  rw [sortEntries_of_all_none _ hall] at he
  exact hall e he

/-- Witness for C9 at a matrix whose target column "B" is constant. -/
theorem C9_zero_variance_target_undefined_witness :
    ("B" ∈ constTargetMatrix.cols ∧
      sumSq (deviations (colVec constTargetMatrix "B")) = 0) ∧
    (∃ l, rankSimilar constTargetMatrix "B" = .ok l ∧ ∀ e ∈ l, e.2 = none) :=
  ⟨⟨by decide, by simp [constTargetMatrix, colVec, sumSq, deviations, listMean]⟩,
    C9_zero_variance_target_undefined constTargetMatrix "B" (by decide)
      (by simp [constTargetMatrix, colVec, sumSq, deviations, listMean])⟩

/-- C10 counterexample: two metadata items share the title "T"; item 2 has no
rating record, yet "T" is still a column of the collaborative rating matrix
(contributed by the rated item 1) and ranking against "T" succeeds instead of
failing — refuting the claim as stated for every pair of input sources. -/
theorem C10_counterexample_shared_title :
    (⟨2, "T", []⟩ : MovieRecord) ∈ sharedTitleMovies ∧
    (∀ r ∈ sharedTitleRatings, r.movieId ≠ 2) ∧
    "T" ∈ (movieMatrix sharedTitleRatings sharedTitleMovies).cols ∧
    collaborativeRecommendation sharedTitleRatings sharedTitleMovies "T" =
      .ok (sortEntries (corrEntries (movieMatrix sharedTitleRatings sharedTitleMovies) "T")) := by
  refine ⟨by decide, by decide, by decide, ?_⟩
  exact rankSimilar_ok _ _ (by decide)

/-- C10 as amended: an item with no rating record produces no merged row in
the inner join, and — provided no other item sharing its title is rated —
its title is absent from the rating matrix's columns, so ranking against
that title fails with `UnknownTargetError`. -/
theorem C10_unrated_item_absent (ratings : List RatingRecord)
    (movies : List MovieRecord) (m : MovieRecord) (hm : m ∈ movies)
    (hnorate : ∀ m2 ∈ movies, m2.title = m.title →
      ∀ r ∈ ratings, r.movieId ≠ m2.movieId) :
    (∀ row ∈ pdMerge ratings movies, row.movieId ≠ m.movieId) ∧
    (∀ row ∈ pdMerge ratings movies, row.title ≠ m.title) ∧
    m.title ∉ (movieMatrix ratings movies).cols ∧
    collaborativeRecommendation ratings movies m.title = .error .unknownTarget := by
  have hrow : ∀ row ∈ pdMerge ratings movies, ∃ r ∈ ratings, ∃ m2 ∈ movies,
      m2.movieId = r.movieId ∧
      row = ⟨r.userId, r.movieId, r.rating, m2.title, m2.genres⟩ := by
    intro row hrowmem
    unfold pdMerge at hrowmem
    rcases List.mem_flatMap.mp hrowmem with ⟨r, hr, hmap⟩
    rcases List.mem_map.mp hmap with ⟨m2, hm2f, rfl⟩
    rcases List.mem_filter.mp hm2f with ⟨hm2, heq⟩
    exact ⟨r, hr, m2, hm2, of_decide_eq_true heq, rfl⟩
  have hid : ∀ row ∈ pdMerge ratings movies, row.movieId ≠ m.movieId := by
    intro row hmemrow
    obtain ⟨r, hr, m2, hm2, hmid, rfl⟩ := hrow row hmemrow
    exact hnorate m hm rfl r hr
  have htitle : ∀ row ∈ pdMerge ratings movies, row.title ≠ m.title := by
    intro row hmemrow
    obtain ⟨r, hr, m2, hm2, hmid, rfl⟩ := hrow row hmemrow
    intro hcontra
    exact hnorate m2 hm2 hcontra r hr hmid.symm
  have hcols : m.title ∉ (movieMatrix ratings movies).cols := by
    intro hcontra
    have h2 : m.title ∈
        sortDedup (((pdMerge ratings movies).map toPivotRow).map (·.title)) :=
      hcontra
    have h3 := (mem_sortDedup _ _).mp h2
    rcases List.mem_map.mp h3 with ⟨prow, hprow, hpt⟩
    rcases List.mem_map.mp hprow with ⟨row, hrowm, rfl⟩
    exact htitle row hrowm hpt
  exact ⟨hid, htitle, hcols, rankSimilar_error _ _ hcols⟩

/-- Witness for C10: item 2 titled "B" has no rating record and no item
sharing its title, so ranking against "B" fails. -/
theorem C10_unrated_item_absent_witness :
    ((⟨2, "B", []⟩ : MovieRecord) ∈ unratedItemMovies ∧
      (∀ m2 ∈ unratedItemMovies, m2.title = "B" →
        ∀ r ∈ unratedItemRatings, r.movieId ≠ m2.movieId)) ∧
    ((∀ row ∈ pdMerge unratedItemRatings unratedItemMovies, row.movieId ≠ 2) ∧
    (∀ row ∈ pdMerge unratedItemRatings unratedItemMovies, row.title ≠ "B") ∧
    "B" ∉ (movieMatrix unratedItemRatings unratedItemMovies).cols ∧
    collaborativeRecommendation unratedItemRatings unratedItemMovies "B" =
      .error .unknownTarget) :=
  ⟨⟨by decide, by decide⟩,
    C10_unrated_item_absent unratedItemRatings unratedItemMovies
      ⟨2, "B", []⟩ (by decide) (by decide)⟩
